import Mathlib

/-!
Verification of the `zap` MicroPython REPL protocol driver
(`pkg/repl/repl.go`) against its natural-language specification.

The serial link is embedded shallowly: the byte stream coming from the
remote device is a `List Nat` of pending input bytes, and the bytes the
driver writes to the port are accumulated in a log.  Reading past the end
of the available input models a transport timeout/error.  All byte values
are `Nat` (real bytes satisfy `b < 256`, carried as a hypothesis where it
matters).
-/

namespace Zap

/-- Error classification of the Go driver: transport/timeout errors,
the generic `errors.New("could not exec command")` acknowledgement
failure, and `errors.New(string(dataErr))` remote-exception errors
(which carry the error-stream bytes verbatim). -/
inductive Err where
  | timeout : Err
  | execFail : Err
  | remote : List Nat → Err
  deriving DecidableEq, Repr

/-- `ReadUntil` with `w == nil` (repl.go lines 46-68, accumulate branch):
read one byte at a time, append it to `data`, and return as soon as
`bytes.HasSuffix(data, ending)` holds.  Returns the accumulated data and
the unconsumed remainder of the stream; `none` models the transport
error when the stream is exhausted first. -/
def readUntilAcc (ending : List Nat) (acc : List Nat) : List Nat → Option (List Nat × List Nat)
  | [] => none
  | b :: rest =>
    let acc' := acc ++ [b]
    if ending.isSuffixOf acc' then some (acc', rest) else readUntilAcc ending acc' rest

/-- `ReadUntil` with `w != nil` (repl.go lines 46-68, streaming branch):
each byte is written to the sink unless it equals `0x04`, `data` is set to
the one-byte slice just read, and the suffix test is made against that
single byte.  Result: (returned data on success, bytes forwarded to the
sink, unconsumed remainder). -/
def readUntilSink (ending : List Nat) : List Nat → Option (List Nat) × List Nat × List Nat
  | [] => (none, [], [])
  | b :: rest =>
    let fwd := if b = 4 then [] else [b]
    if ending.isSuffixOf [b] then (some [b], fwd, rest)
    else
      let r := readUntilSink ending rest
      (r.1, fwd ++ r.2.1, r.2.2)

/-- State of the serial port as seen by the driver: whether writes
succeed, the pending input bytes from the device, and the log of bytes
written to the port so far. -/
structure St where
  canWrite : Bool
  inp : List Nat
  out : List Nat
  deriving DecidableEq, Repr

/-- `r.ReadUntil(ending, nil)` lifted to the port state. -/
def rdUntil (ending : List Nat) (s : St) : Except Err (List Nat) × St :=
  match readUntilAcc ending [] s.inp with
  | none => (.error .timeout, { s with inp := [] })
  | some (d, rest) => (.ok d, { s with inp := rest })

/-- `r.ReadUntil(ending, w)` lifted to the port state; also returns the
bytes the sink received (even on failure, since those writes already
happened). -/
def rdUntilSink (ending : List Nat) (s : St) : (Option (List Nat) × List Nat) × St :=
  let r := readUntilSink ending s.inp
  ((r.1, r.2.1), { s with inp := r.2.2 })

/-- `r.Port.Write(bs)` (fails iff the port cannot be written). -/
def wr (bs : List Nat) (s : St) : Except Err Unit × St :=
  if s.canWrite then (.ok (), { s with out := s.out ++ bs }) else (.error .timeout, s)

/-- `ExecRaw` (repl.go lines 104-126): read until the raw prompt `'>'`
(byte 62), write the code, write `0x04`, read exactly 2 bytes and require
them to equal `"OK"` (bytes 79 75); any other reply is the generic
`could not exec command` failure. -/
def execRaw (code : List Nat) (s : St) : Except Err Unit × St :=
  match rdUntil [62] s with
  | (.error e, s1) => (.error e, s1)
  | (.ok _, s1) =>
    match wr code s1 with
    | (.error e, s2) => (.error e, s2)
    | (.ok _, s2) =>
      match wr [4] s2 with
      | (.error e, s3) => (.error e, s3)
      | (.ok _, s3) =>
        match s3.inp with
        | r1 :: r2 :: rest =>
          if [r1, r2] = [79, 75] then (.ok (), { s3 with inp := rest })
          else (.error .execFail, { s3 with inp := rest })
        | _ => (.error .timeout, { s3 with inp := [] })

/-- `Follow(nil)` (repl.go lines 129-145 with `w == nil`): read the
stdout stream until `0x04`, trim the trailing terminator if the data is
non-empty, then read the error stream the same way. -/
def followNil (s : St) : Except Err (List Nat × List Nat) × St :=
  match rdUntil [4] s with
  | (.error e, s1) => (.error e, s1)
  | (.ok d, s1) =>
    let d' := if d.length > 0 then d.dropLast else d
    match rdUntil [4] s1 with
    | (.error e, s2) => (.error e, s2)
    | (.ok de, s2) =>
      let de' := if de.length > 0 then de.dropLast else de
      (.ok (d', de'), s2)

/-- `Follow(w)` with a sink (repl.go lines 129-145): the stdout stream is
streamed to the sink, the error stream is always accumulated.  Also
returns the bytes the sink received. -/
def followSink (s : St) : (Except Err (List Nat × List Nat) × List Nat) × St :=
  match rdUntilSink [4] s with
  | ((none, o1), s1) => ((.error .timeout, o1), s1)
  | ((some d, o1), s1) =>
    let d' := if d.length > 0 then d.dropLast else d
    match rdUntil [4] s1 with
    | (.error e, s2) => ((.error e, o1), s2)
    | (.ok de, s2) =>
      let de' := if de.length > 0 then de.dropLast else de
      ((.ok (d', de'), o1), s2)

/-- `Exec(code, nil)` (repl.go lines 149-162): `ExecRaw` then `Follow`;
if the error stream is non-empty the call fails with exactly those bytes
as the message, otherwise the stdout bytes are returned. -/
def execNil (code : List Nat) (s : St) : Except Err (List Nat) × St :=
  match execRaw code s with
  | (.error e, s1) => (.error e, s1)
  | (.ok _, s1) =>
    match followNil s1 with
    | (.error e, s2) => (.error e, s2)
    | (.ok (d, de), s2) =>
      if de.length > 0 then (.error (.remote de), s2) else (.ok d, s2)

/-- `Exec(code, w)` with a sink; additionally reports the bytes the sink
received (those writes happen before any failure is reported). -/
def execSink (code : List Nat) (s : St) : (Except Err (List Nat) × List Nat) × St :=
  match execRaw code s with
  | (.error e, s1) => ((.error e, []), s1)
  | (.ok _, s1) =>
    match followSink s1 with
    | ((.error e, o1), s2) => ((.error e, o1), s2)
    | ((.ok (d, de), o1), s2) =>
      if de.length > 0 then ((.error (.remote de), o1), s2) else ((.ok d, o1), s2)

/-- ASCII bytes of a string. -/
def ascii (s : String) : List Nat := s.data.map Char.toNat

/-- The banner `"soft reboot\r\n"`. -/
def bannerReboot : List Nat := ascii "soft reboot\r\n"

/-- The banner `"raw REPL; CTRL-B to exit\r\n"`. -/
def bannerRaw : List Nat := ascii "raw REPL; CTRL-B to exit\r\n"

/-- `SoftReboot` (repl.go lines 90-101): write the single byte `0x04`,
then read until `"soft reboot\r\n"`, then until
`"raw REPL; CTRL-B to exit\r\n"`, propagating the first failure. -/
def softReboot (s : St) : Except Err Unit × St :=
  match wr [4] s with
  | (.error e, s1) => (.error e, s1)
  | (.ok _, s1) =>
    match rdUntil bannerReboot s1 with
    | (.error e, s2) => (.error e, s2)
    | (.ok _, s2) =>
      match rdUntil bannerRaw s2 with
      | (.error e, s3) => (.error e, s3)
      | (.ok _, s3) => (.ok (), s3)

/-!
Standard base64 (`encoding/base64` `StdEncoding`, the standard alphabet
with `=` padding), as used by `Put` (`EncodeToString`) and `Get`
(`DecodeString`), and matched on the remote side by the
`ubinascii` `a2b_base64` / `b2a_base64` primitives.
-/

/-- The standard base64 alphabet `A-Z a-z 0-9 + /`, as byte values. -/
def b64alphabet : List Nat :=
  [65, 66, 67, 68, 69, 70, 71, 72, 73, 74, 75, 76, 77, 78, 79, 80, 81, 82,
   83, 84, 85, 86, 87, 88, 89, 90,
   97, 98, 99, 100, 101, 102, 103, 104, 105, 106, 107, 108, 109, 110, 111,
   112, 113, 114, 115, 116, 117, 118, 119, 120, 121, 122,
   48, 49, 50, 51, 52, 53, 54, 55, 56, 57, 43, 47]

/-- Character of a six-bit group. -/
def b64tab (s : Nat) : Nat := b64alphabet.getD s 0

/-- Index of a character in a list, or `none`. -/
def idxAux (c : Nat) (i : Nat) : List Nat → Option Nat
  | [] => none
  | a :: rest => if a = c then some i else idxAux c (i + 1) rest

/-- Six-bit value of an alphabet character, `none` for anything else
(including the pad character `=`, byte 61). -/
def b64idx (c : Nat) : Option Nat := idxAux c 0 b64alphabet

/-- Base64 encoding of a byte list: 3-byte groups become 4 characters, a
trailing 1- or 2-byte group is padded with `=`. -/
def b64encode : List Nat → List Nat
  | [] => []
  | [a] => [b64tab (a / 4), b64tab (a % 4 * 16), 61, 61]
  | [a, b] => [b64tab (a / 4), b64tab (a % 4 * 16 + b / 16), b64tab (b % 16 * 4), 61]
  | a :: b :: c :: rest =>
    [b64tab (a / 4), b64tab (a % 4 * 16 + b / 16), b64tab (b % 16 * 4 + c / 64),
     b64tab (c % 64)] ++ b64encode rest

/-- Base64 decoding: the input must be a sequence of 4-character quads,
with `=` padding allowed only in the final quad; any character outside
the alphabet (in a non-pad position) fails.  Unused bits of a padded
quad are ignored, as Go's non-strict decoder does. -/
def b64decode : List Nat → Option (List Nat)
  | [] => some []
  | c0 :: c1 :: c2 :: c3 :: rest =>
    if c2 = 61 ∧ c3 = 61 ∧ rest = [] then
      match b64idx c0, b64idx c1 with
      | some s0, some s1 => some [s0 * 4 + s1 / 16]
      | _, _ => none
    else if c3 = 61 ∧ rest = [] then
      match b64idx c0, b64idx c1, b64idx c2 with
      | some s0, some s1, some s2 => some [s0 * 4 + s1 / 16, s1 % 16 * 16 + s2 / 4]
      | _, _, _ => none
    else
      match b64idx c0, b64idx c1, b64idx c2, b64idx c3, b64decode rest with
      | some s0, some s1, some s2, some s3, some tail =>
        some ([s0 * 4 + s1 / 16, s1 % 16 * 16 + s2 / 4, s2 % 4 * 64 + s3] ++ tail)
      | _, _, _, _, _ => none
  | _ => none

/-!
Chunked file transfer (`Put`, repl.go lines 247-279, and `Get`, lines
190-219).  `Put` reads the local file in 256-byte chunks (a final short
chunk allowed, no empty chunk sent) and sends each as a
`w("<base64>")` snippet; the faithful remote decodes each chunk with
`a2b_base64` and appends it to the remote file.  `Get` repeatedly asks
the remote to read 256 bytes, base64-encode them and print them; the
local side decodes, stops on an empty chunk, and otherwise writes the
bytes to the destination file at the current offset.
-/

/-- Successive `f.Read` chunks of a local file: 256-byte pieces, final
piece possibly shorter, none for an empty file (Go's `Read` returns
`io.EOF` with 0 bytes there, ending the loop). -/
def chunks256 (l : List Nat) : List (List Nat) :=
  if h : l = [] then []
  else l.take 256 :: chunks256 (l.drop 256)
termination_by l.length
decreasing_by
  simp only [List.length_drop]
  exact Nat.sub_lt (List.length_pos.mpr h) (by norm_num)

/-- Effect on the remote file of a faithful interpreter running the
chunk-write snippets of `Put`: each encoded chunk is decoded with
`a2b_base64` and appended; a decode failure aborts. -/
def decodeChunks : List (List Nat) → Option (List Nat)
  | [] => some []
  | c :: cs =>
    match b64decode (b64encode c), decodeChunks cs with
    | some x, some rest => some (x ++ rest)
    | _, _ => none

/-- Remote file content produced by `Put` with a faithful remote
interpreter, as a function of the local file content. -/
def putRemote (l : List Nat) : Option (List Nat) := decodeChunks (chunks256 l)

/-- One `f.Write(x)` on a local file opened `O_WRONLY|O_CREATE` (no
truncation): overwrite in place at the current offset, extending the
file if needed. -/
def fwrite (content : List Nat) (off : Nat) (x : List Nat) : List Nat :=
  content.take off ++ x ++ content.drop (off + x.length)

theorem b64_roundtrip_nil : b64decode (b64encode []) = some [] := rfl

/-- The download loop of `Get` against a faithful remote whose file has
`remote` bytes left to read: decode the base64 of the next 256-byte
remote chunk, stop when it is empty, otherwise write it to the local
file (initial content `fcontent`, write offset `off`) and continue. -/
def getGo (fcontent : List Nat) (off : Nat) (remote : List Nat) : Option (List Nat) :=
  match hx : b64decode (b64encode (remote.take 256)) with
  | none => none
  | some x =>
    if hlen : x.length = 0 then some fcontent
    else getGo (fwrite fcontent off x) (off + x.length) (remote.drop 256)
termination_by remote.length
decreasing_by
  have hne : remote ≠ [] := by
    intro he
    rw [he] at hx
    simp only [List.take_nil, b64_roundtrip_nil, Option.some.injEq] at hx
    exact hlen (by simp [← hx])
  simp only [List.length_drop]
  exact Nat.sub_lt (List.length_pos.mpr hne) (by norm_num)

/-- The successive chunks the `Get` loop observes (decoded), including
the final empty chunk that stops the loop. -/
def getIterChunks (remote : List Nat) : List (List Nat) :=
  if h : remote = [] then [[]]
  else remote.take 256 :: getIterChunks (remote.drop 256)
termination_by remote.length
decreasing_by
  simp only [List.length_drop]
  exact Nat.sub_lt (List.length_pos.mpr h) (by norm_num)

/-- The header snippet of `Put`: import the decoder, open the remote
destination for binary write, bind the write helper. -/
def putHeader (dst : String) : List Nat :=
  ascii ("from ubinascii import a2b_base64\nf=open(\"" ++ dst ++ "\",\x27wb\x27)\nw=lambda x:f.write(a2b_base64(x))\n")

/-- A chunk-write snippet of `Put`: `w("<encoded>")`. -/
def putWriteSnippet (e : List Nat) : List Nat := ascii "w(\"" ++ e ++ ascii "\")\n"

/-- The final snippet of `Put`: `f.close()`. -/
def putCloseSnippet : List Nat := ascii "f.close()"

/-- The sequence of snippets `Put` passes to `Exec`, in order. -/
def putSnippets (dst : String) (l : List Nat) : List (List Nat) :=
  putHeader dst :: (chunks256 l).map (fun c => putWriteSnippet (b64encode c)) ++ [putCloseSnippet]

/-!
`Ls` (repl.go lines 222-234): run the listing snippet with a string
builder as sink, trim trailing spaces from the output, split on `' '`.
-/

/-- `strings.Split(s, " ")` on byte lists: split on byte 32, empty input
giving a single empty field. -/
def splitOnSpace (l : List Nat) : List (List Nat) :=
  match l with
  | [] => [[]]
  | c :: rest =>
    match splitOnSpace rest with
    | [] => [[]]
    | g :: gs => if c = 32 then [] :: g :: gs else (c :: g) :: gs

/-- `strings.TrimRight(s, " ")` on byte lists. -/
def trimRightSpaces (l : List Nat) : List Nat :=
  (l.reverse.dropWhile (fun b => b == 32)).reverse

/-- The post-processing `Ls` applies to the sink output of its `Exec`
call before returning the entries. -/
def lsParse (out : List Nat) : List (List Nat) := splitOnSpace (trimRightSpaces out)

/-! ### Base64 lemmas -/

theorem b64idx_tab_fin : ∀ s : Fin 64, b64idx (b64tab s.val) = some s.val := by decide

theorem b64tab_ne61_fin : ∀ s : Fin 64, b64tab s.val ≠ 61 := by decide

theorem b64idx_tab (s : Nat) (h : s < 64) : b64idx (b64tab s) = some s :=
  b64idx_tab_fin ⟨s, h⟩

theorem b64tab_ne61 (s : Nat) (h : s < 64) : b64tab s ≠ 61 :=
  b64tab_ne61_fin ⟨s, h⟩

/-- Decoding an encoded byte list recovers it exactly (all values being
bytes). -/
theorem b64_roundtrip : ∀ (l : List Nat), (∀ b ∈ l, b < 256) →
    b64decode (b64encode l) = some l
  | [], _ => rfl
  | [a], h => by
    have ha : a < 256 := h a (by simp)
    have h0 := b64idx_tab (a / 4) (by omega)
    have h1 := b64idx_tab (a % 4 * 16) (by omega)
    simp only [b64encode, b64decode]
    simp [h0, h1]
    all_goals omega
  | [a, b], h => by
    have ha : a < 256 := h a (by simp)
    have hb : b < 256 := h b (by simp)
    have h0 := b64idx_tab (a / 4) (by omega)
    have h1 := b64idx_tab (a % 4 * 16 + b / 16) (by omega)
    have h2 := b64idx_tab (b % 16 * 4) (by omega)
    have hne := b64tab_ne61 (b % 16 * 4) (by omega)
    simp only [b64encode, b64decode]
    simp [hne, h0, h1, h2]
    all_goals omega
  | a :: b :: c :: rest, h => by
    have ha : a < 256 := h a (by simp)
    have hb : b < 256 := h b (by simp)
    have hc : c < 256 := h c (by simp)
    have ih := b64_roundtrip rest (fun x hx => h x (by simp [hx]))
    have h0 := b64idx_tab (a / 4) (by omega)
    have h1 := b64idx_tab (a % 4 * 16 + b / 16) (by omega)
    have h2 := b64idx_tab (b % 16 * 4 + c / 64) (by omega)
    have h3 := b64idx_tab (c % 64) (by omega)
    have hne2 := b64tab_ne61 (b % 16 * 4 + c / 64) (by omega)
    have hne3 := b64tab_ne61 (c % 64) (by omega)
    simp only [b64encode, b64decode]
    simp [hne2, hne3, h0, h1, h2, h3, ih]
    all_goals omega

/-! ### Chunking lemmas -/

theorem chunks256_flatten (l : List Nat) : (chunks256 l).flatten = l := by
  induction l using chunks256.induct with
  | case1 => rw [chunks256]; simp
  | case2 l hl ih => rw [chunks256]; simp [hl, ih]

theorem chunks256_subset (l : List Nat) : ∀ c ∈ chunks256 l, ∀ b ∈ c, b ∈ l := by
  induction l using chunks256.induct with
  | case1 => rw [chunks256]; simp
  | case2 l hl ih =>
    rw [chunks256]
    simp only [hl, dite_false, List.mem_cons]
    intro c hc b hb
    rcases hc with hc | hc
    · exact List.mem_of_mem_take (hc ▸ hb)
    · exact List.mem_of_mem_drop (ih c hc b hb)

theorem decodeChunks_eq : ∀ (cs : List (List Nat)), (∀ c ∈ cs, ∀ b ∈ c, b < 256) →
    decodeChunks cs = some cs.flatten
  | [], _ => rfl
  | c :: cs, h => by
    have h1 := b64_roundtrip c (h c (by simp))
    have h2 := decodeChunks_eq cs (fun d hd => h d (by simp [hd]))
    simp [decodeChunks, h1, h2]

/-- `Put` against a faithful remote reproduces the local file exactly. -/
theorem putRemote_eq (l : List Nat) (h : ∀ b ∈ l, b < 256) : putRemote l = some l := by
  unfold putRemote
  rw [decodeChunks_eq _ (fun c hc b hb => h b (chunks256_subset l c hc b hb)),
    chunks256_flatten]

/-- Auxiliary: full characterisation of the `Get` download loop, fuelled
by a bound on the remote length.  Starting from local content `old` and
write offset `off ≤ old.length`, the loop writes exactly the remote
bytes at `off`, leaving the rest of `old` intact. -/
theorem getGo_eq_aux (n : Nat) : ∀ (remote old : List Nat) (off : Nat),
    remote.length ≤ n → (∀ b ∈ remote, b < 256) → off ≤ old.length →
    getGo old off remote = some (old.take off ++ remote ++ old.drop (off + remote.length)) := by
  induction n with
  | zero =>
    intro remote old off hn hb hoff
    have hre : remote = [] := List.length_eq_zero.mp (Nat.le_zero.mp hn)
    subst hre
    rw [getGo.eq_def]
    split
    · next hx => simp [b64_roundtrip_nil] at hx
    · next x hx =>
      simp only [List.take_nil, b64_roundtrip_nil, Option.some.injEq] at hx
      subst hx
      simp
  | succ n ih =>
    intro remote old off hn hb hoff
    have hrt := b64_roundtrip (remote.take 256) (fun b hbm => hb b (List.mem_of_mem_take hbm))
    rw [getGo.eq_def]
    split
    · next hx => rw [hrt] at hx; exact absurd hx (by simp)
    · next x hx =>
      rw [hrt] at hx
      injection hx with hx'
      subst hx'
      split
      · next hlen =>
        have hre : remote = [] := by
          rcases List.take_eq_nil_iff.mp (List.length_eq_zero.mp hlen) with h256 | hre
          · exact absurd h256 (by norm_num)
          · exact hre
        subst hre
        simp
      · next hlen =>
        have hrne : remote ≠ [] := by
          intro hre; subst hre; simp at hlen
        have hkmin : (remote.take 256).length = min 256 remote.length := List.length_take _ _
        have hoff' : (old.take off).length = off := by
          rw [List.length_take]; omega
        have hfw : fwrite old off (remote.take 256) =
            (old.take off ++ remote.take 256) ++ old.drop (off + (remote.take 256).length) := by
          simp [fwrite, List.append_assoc]
        rw [ih (remote.drop 256) (fwrite old off (remote.take 256))
            (off + (remote.take 256).length)
            (by simp only [List.length_drop]; omega)
            (fun b hbm => hb b (List.mem_of_mem_drop hbm))
            (by
              rw [hfw]
              simp only [List.length_append, List.length_drop, hoff']
              omega)]
        congr 1
        rw [hfw]
        rw [List.take_left' (by simp [hoff'])]
        have hdl : ((old.take off ++ remote.take 256) ++
              old.drop (off + (remote.take 256).length)).drop
              (off + (remote.take 256).length + (remote.drop 256).length) =
            old.drop (off + remote.length) := by
          rw [← List.drop_drop, List.drop_left' (by simp [hoff'])]
          rw [List.drop_drop]
          congr 1
          simp only [List.length_drop]
          omega
        rw [hdl]
        have hmid : (old.take off ++ remote.take 256) ++ remote.drop 256 ++
              old.drop (off + remote.length) =
            old.take off ++ remote ++ old.drop (off + remote.length) := by
          simp only [List.append_assoc, List.take_append_drop]
        simp only [List.append_assoc] at hmid ⊢
        exact hmid

/-! ### Framing-reader lemmas -/

theorem single_suffix_iff (t b : Nat) (l : List Nat) : [t] <:+ l ++ [b] ↔ t = b := by
  constructor
  · rintro ⟨s, hs⟩
    have h2 := (List.append_inj' hs (by simp)).2
    injection h2 with h3 _
  · rintro rfl
    exact ⟨l, rfl⟩

theorem single_suffix_single_iff (t b : Nat) : [t] <:+ [b] ↔ t = b := by
  have := single_suffix_iff t b []
  simpa using this

/-- Accumulating `ReadUntil` with a single-byte terminator: stops right
after the first occurrence of the byte, returning everything read. -/
theorem readUntilAcc_single (t : Nat) : ∀ (P acc r : List Nat), t ∉ P →
    readUntilAcc [t] acc (P ++ t :: r) = some (acc ++ P ++ [t], r)
  | [], acc, r, _ => by
    have hs : [t].isSuffixOf (acc ++ [t]) = true := by
      simp [List.isSuffixOf_iff_suffix]
    simp [readUntilAcc, hs]
  | p :: P, acc, r, hP => by
    have hpt : t ≠ p := fun he => hP (by simp [he])
    have hs2 : ¬ ([t].isSuffixOf (acc ++ [p]) = true) := by
      simp only [List.isSuffixOf_iff_suffix, single_suffix_iff]
      exact hpt
    simp only [List.cons_append, readUntilAcc, if_neg hs2, List.append_eq]
    rw [readUntilAcc_single t P (acc ++ [p]) r (fun hm => hP (List.mem_cons_of_mem _ hm))]
    simp

/-- Streaming `ReadUntil` with a single-byte terminator: stops right
after the first occurrence, forwarding everything except `0x04` bytes. -/
theorem readUntilSink_single (t : Nat) : ∀ (P r : List Nat), t ∉ P →
    readUntilSink [t] (P ++ t :: r) =
      (some [t], P.filter (fun b => b != 4) ++ (if t = 4 then [] else [t]), r)
  | [], r, _ => by
    have hs : [t].isSuffixOf [t] = true := by
      simp [List.isSuffixOf_iff_suffix]
    simp [readUntilSink, hs]
  | p :: P, r, hP => by
    have hpt : t ≠ p := fun he => hP (by simp [he])
    have hs2 : ¬ ([t].isSuffixOf [p] = true) := by
      simp only [List.isSuffixOf_iff_suffix, single_suffix_single_iff]
      exact hpt
    simp only [List.cons_append, readUntilSink, if_neg hs2, List.append_eq]
    rw [readUntilSink_single t P r (fun hm => hP (List.mem_cons_of_mem _ hm))]
    by_cases hp4 : p = 4 <;> simp [hp4, List.filter_cons]

/-- Streaming `ReadUntil` never succeeds with a terminator of two or
more bytes: the tracked data is a single byte, so the suffix test can
never pass. -/
theorem readUntilSink_long (T : List Nat) (hT : 2 ≤ T.length) :
    ∀ S : List Nat, (readUntilSink T S).1 = none
  | [] => rfl
  | b :: rest => by
    have hs : ¬ (T.isSuffixOf [b] = true) := by
      simp only [List.isSuffixOf_iff_suffix]
      intro h
      have := h.length_le
      simp at this
      omega
    simp only [readUntilSink, if_neg hs]
    exact readUntilSink_long T hT rest

/-- Soundness of the accumulating reader: a successful return consumed
exactly the bytes up to the first suffix match, with no earlier match. -/
theorem readUntilAcc_sound (T : List Nat) : ∀ (S acc p rest : List Nat),
    readUntilAcc T acc S = some (p, rest) →
    ∃ q, q ≠ [] ∧ S = q ++ rest ∧ p = acc ++ q ∧ T.isSuffixOf p = true ∧
      ∀ n, 0 < n → n < q.length → T.isSuffixOf (acc ++ q.take n) = false
  | [], acc, p, rest, h => by simp [readUntilAcc] at h
  | b :: S, acc, p, rest, h => by
    simp only [readUntilAcc] at h
    by_cases hs : T.isSuffixOf (acc ++ [b]) = true
    · rw [if_pos hs] at h
      simp only [Option.some.injEq, Prod.mk.injEq] at h
      obtain ⟨h1, h2⟩ := h
      subst h1
      subst h2
      exact ⟨[b], by simp, rfl, rfl, hs, fun n hn0 hnlen => by simp at hnlen; omega⟩
    · rw [if_neg hs] at h
      obtain ⟨q, hqne, hS, hp, hsuf, hmin⟩ := readUntilAcc_sound T S (acc ++ [b]) p rest h
      refine ⟨b :: q, by simp, by simp [hS], by simp [hp], hsuf, ?_⟩
      intro n hn0 hnlen
      match n, hn0 with
      | m + 1, _ =>
        rcases Nat.eq_zero_or_pos m with h0 | hm
        · subst h0
          simp only [List.take_succ_cons, List.take_zero]
          exact Bool.not_eq_true _ ▸ (by simpa using hs)
        · have := hmin m hm (by simp at hnlen; omega)
          simp only [List.take_succ_cons]
          rw [show acc ++ b :: q.take m = (acc ++ [b]) ++ q.take m by simp]
          exact this

/-- Completeness of the accumulating reader: if some non-empty prefix of
the stream extends the accumulator to a suffix match, the reader
succeeds. -/
theorem readUntilAcc_complete (T : List Nat) : ∀ (S acc : List Nat) (n : Nat),
    0 < n → n ≤ S.length → T.isSuffixOf (acc ++ S.take n) = true →
    (readUntilAcc T acc S).isSome
  | [], _, n, hn0, hnle, _ => by simp at hnle; omega
  | b :: S, acc, n, hn0, hnle, hsuf => by
    simp only [readUntilAcc]
    by_cases hs : T.isSuffixOf (acc ++ [b]) = true
    · rw [if_pos hs]; rfl
    · rw [if_neg hs]
      match n, hn0 with
      | 1, _ =>
        exact absurd (by simpa using hsuf) hs
      | m + 2, _ =>
        exact readUntilAcc_complete T S (acc ++ [b]) (m + 1) (by omega)
          (by simp at hnle ⊢; omega)
          (by rw [show (acc ++ [b]) ++ S.take (m+1) = acc ++ (b :: S).take (m+2) by simp]; exact hsuf)

/-! ### Executor lemmas -/

theorem rdUntil_single (t : Nat) (P r : List Nat) (s : St) (hs : s.inp = P ++ t :: r)
    (hP : t ∉ P) : rdUntil [t] s = (.ok (P ++ [t]), { s with inp := r }) := by
  unfold rdUntil
  rw [hs, readUntilAcc_single t P [] r hP]
  simp

theorem rdUntil_of_acc (T : List Nat) (s : St) (d rest : List Nat)
    (h : readUntilAcc T [] s.inp = some (d, rest)) :
    rdUntil T s = (.ok d, { s with inp := rest }) := by
  unfold rdUntil
  rw [h]

theorem rdUntil_of_none (T : List Nat) (s : St) (h : readUntilAcc T [] s.inp = none) :
    rdUntil T s = (.error .timeout, { s with inp := [] }) := by
  unfold rdUntil
  rw [h]

theorem filter_ne4_eq_self (P : List Nat) (hP : 4 ∉ P) :
    P.filter (fun b => b != 4) = P :=
  List.filter_eq_self.mpr (fun a ha => bne_iff_ne.mpr (fun he => hP (he ▸ ha)))

theorem rdUntilSink_single4 (P r : List Nat) (s : St) (hs : s.inp = P ++ 4 :: r)
    (hP : 4 ∉ P) : rdUntilSink [4] s = ((some [4], P), { s with inp := r }) := by
  unfold rdUntilSink
  rw [hs, readUntilSink_single 4 P r hP]
  simp [filter_ne4_eq_self P hP]

/-- `ExecRaw` on a well-formed stream: whatever noise precedes the first
prompt byte `'>'` is drained, the code then the `0x04` sentinel are
written, exactly the next two reply bytes are consumed, and the call
succeeds precisely when they are `"OK"`. -/
theorem execRaw_eq (code P : List Nat) (r1 r2 : Nat) (rest out : List Nat) (hP : 62 ∉ P) :
    execRaw code ⟨true, P ++ 62 :: r1 :: r2 :: rest, out⟩ =
      ((if [r1, r2] = [79, 75] then .ok () else .error .execFail : Except Err Unit),
       ⟨true, rest, out ++ code ++ [4]⟩) := by
  unfold execRaw
  rw [rdUntil_single 62 P (r1 :: r2 :: rest) _ rfl hP]
  simp only [wr]
  simp [List.append_assoc]
  split
  · next h => simp [h]
  · next h => simp [h]

theorem followNil_eq (D E rest out : List Nat) (cw : Bool) (hD : 4 ∉ D) (hE : 4 ∉ E) :
    followNil ⟨cw, D ++ 4 :: (E ++ 4 :: rest), out⟩ = (.ok (D, E), ⟨cw, rest, out⟩) := by
  unfold followNil
  rw [rdUntil_single 4 D (E ++ 4 :: rest) _ rfl hD]
  simp only []
  rw [rdUntil_single 4 E rest _ rfl hE]
  simp

theorem followSink_eq (D E rest out : List Nat) (cw : Bool) (hD : 4 ∉ D) (hE : 4 ∉ E) :
    followSink ⟨cw, D ++ 4 :: (E ++ 4 :: rest), out⟩ =
      ((.ok ([], E), D), ⟨cw, rest, out⟩) := by
  unfold followSink
  rw [rdUntilSink_single4 D (E ++ 4 :: rest) _ rfl hD]
  simp only []
  rw [rdUntil_single 4 E rest _ rfl hE]
  simp

theorem execNil_eq (code P D E rest out : List Nat) (hP : 62 ∉ P) (hD : 4 ∉ D)
    (hE : 4 ∉ E) :
    execNil code ⟨true, P ++ 62 :: 79 :: 75 :: (D ++ 4 :: (E ++ 4 :: rest)), out⟩ =
      ((if E.length > 0 then .error (.remote E) else .ok D : Except Err (List Nat)),
       ⟨true, rest, out ++ code ++ [4]⟩) := by
  unfold execNil
  rw [show (P ++ 62 :: 79 :: 75 :: (D ++ 4 :: (E ++ 4 :: rest))) =
      P ++ 62 :: (79 :: 75 :: (D ++ 4 :: (E ++ 4 :: rest))) from rfl,
    execRaw_eq code P 79 75 (D ++ 4 :: (E ++ 4 :: rest)) out hP]
  simp only [show (([79, 75] : List Nat) = [79, 75]) = True from by simp, if_true]
  rw [followNil_eq D E rest (out ++ code ++ [4]) true hD hE]
  by_cases hEl : E.length > 0 <;> simp [hEl]

theorem execSink_eq (code P D E rest out : List Nat) (hP : 62 ∉ P) (hD : 4 ∉ D)
    (hE : 4 ∉ E) :
    execSink code ⟨true, P ++ 62 :: 79 :: 75 :: (D ++ 4 :: (E ++ 4 :: rest)), out⟩ =
      (((if E.length > 0 then .error (.remote E) else .ok [] : Except Err (List Nat)), D),
       ⟨true, rest, out ++ code ++ [4]⟩) := by
  unfold execSink
  rw [show (P ++ 62 :: 79 :: 75 :: (D ++ 4 :: (E ++ 4 :: rest))) =
      P ++ 62 :: (79 :: 75 :: (D ++ 4 :: (E ++ 4 :: rest))) from rfl,
    execRaw_eq code P 79 75 (D ++ 4 :: (E ++ 4 :: rest)) out hP]
  simp only [show (([79, 75] : List Nat) = [79, 75]) = True from by simp, if_true]
  rw [followSink_eq D E rest (out ++ code ++ [4]) true hD hE]
  by_cases hEl : E.length > 0 <;> simp [hEl]

/-! ### Claim theorems -/

/-- C1: round trip — `Put` of a local file against a faithful remote
interpreter stores exactly the local bytes remotely, and a subsequent
`Get` into a fresh local destination reproduces them byte-identically,
for every file size (covering 0, 1, 256, 257 and larger, i.e. zero, one
and multiple chunks including an exact chunk boundary). -/
theorem put_get_roundtrip (lf : List Nat) (h : ∀ b ∈ lf, b < 256) :
    ∃ remote, putRemote lf = some remote ∧ getGo [] 0 remote = some lf := by
  refine ⟨lf, putRemote_eq lf h, ?_⟩
  have := getGo_eq_aux lf.length lf [] 0 le_rfl h (by simp)
  simpa using this

theorem put_get_roundtrip_witness :
    ∃ remote, putRemote (List.replicate 300 7) = some remote ∧
      getGo [] 0 remote = some (List.replicate 300 7) :=
  put_get_roundtrip (List.replicate 300 7)
    (fun b hb => by rw [List.eq_of_mem_replicate hb]; norm_num)

/-- C2: `Exec` fails exactly when the remote error stream is non-empty
or a lower-level step already failed; a non-empty error stream is
surfaced as an error carrying exactly the error-stream bytes, and an
empty one returns the stdout bytes unchanged. -/
theorem exec_error_iff (code P D E rest out : List Nat)
    (hP : 62 ∉ P) (hD : 4 ∉ D) (hE : 4 ∉ E) :
    (E = [] →
      execNil code ⟨true, P ++ 62 :: 79 :: 75 :: (D ++ 4 :: (E ++ 4 :: rest)), out⟩ =
        (.ok D, ⟨true, rest, out ++ code ++ [4]⟩)) ∧
    (E ≠ [] →
      execNil code ⟨true, P ++ 62 :: 79 :: 75 :: (D ++ 4 :: (E ++ 4 :: rest)), out⟩ =
        (.error (.remote E), ⟨true, rest, out ++ code ++ [4]⟩)) ∧
    (∀ s err, (execRaw code s).1 = .error err → (execNil code s).1 = .error err) := by
  refine ⟨?_, ?_, ?_⟩
  · intro hEnil
    rw [execNil_eq code P D E rest out hP hD hE]
    simp [hEnil]
  · intro hEne
    rw [execNil_eq code P D E rest out hP hD hE]
    simp [List.length_pos.mpr hEne]
  · intro s err h
    unfold execNil
    rcases hre : execRaw code s with ⟨res, s1⟩
    rw [hre] at h
    simp only at h
    subst h
    rfl

theorem exec_error_iff_witness :
    ((([101] : List Nat) = [] →
      execNil [99] ⟨true, [] ++ 62 :: 79 :: 75 :: ([100] ++ 4 :: ([101] ++ 4 :: [])), []⟩ =
        (.ok [100], ⟨true, [], [] ++ [99] ++ [4]⟩)) ∧
    (([101] : List Nat) ≠ [] →
      execNil [99] ⟨true, [] ++ 62 :: 79 :: 75 :: ([100] ++ 4 :: ([101] ++ 4 :: [])), []⟩ =
        (.error (.remote [101]), ⟨true, [], [] ++ [99] ++ [4]⟩)) ∧
    (∀ s err, (execRaw [99] s).1 = .error err → (execNil [99] s).1 = .error err)) :=
  exec_error_iff [99] [] [100] [101] [] [] (by decide) (by decide) (by decide)

/-- C3 (counterexample): with a sink and the two-byte terminator
`[6, 7]`, `ReadUntil` on the stream `[6, 7]` does not return
successfully even though the bytes read so far end with the terminator
(the accumulating variant stops exactly there) — with a sink only the
single most recent byte is tracked, so a multi-byte terminator never
matches. -/
theorem readUntil_sink_misses_long_terminator :
    readUntilSink [6, 7] [6, 7] = (none, [6, 7], []) ∧
    readUntilAcc [6, 7] [] [6, 7] = some ([6, 7], []) := by
  constructor <;> rfl

/-- C3 (amended): without a sink, `ReadUntil` returns successfully
exactly at the first position where the bytes read so far end with the
terminator `T` (soundness and completeness below).  With a sink only
the most recent byte is tracked: for a one-byte terminator the
behaviour coincides — the reader stops at the first occurrence of the
byte — but for terminators of length ≥ 2 the streaming variant never
returns successfully. -/
theorem readUntil_first_match (T S : List Nat) (hT : T ≠ []) :
    (∀ p rest, readUntilAcc T [] S = some (p, rest) →
      S = p ++ rest ∧ T.isSuffixOf p = true ∧
        ∀ n, n < p.length → T.isSuffixOf (p.take n) = false) ∧
    ((∃ n, 0 < n ∧ n ≤ S.length ∧ T.isSuffixOf (S.take n) = true) →
      (readUntilAcc T [] S).isSome) ∧
    (∀ t P r, T = [t] → t ∉ P → S = P ++ t :: r →
      readUntilSink T S =
        (some [t], P.filter (fun b => b != 4) ++ (if t = 4 then [] else [t]), r)) ∧
    (2 ≤ T.length → (readUntilSink T S).1 = none) := by
  refine ⟨?_, ?_, ?_, ?_⟩
  · intro p rest h
    obtain ⟨q, hqne, hS, hp, hsuf, hmin⟩ := readUntilAcc_sound T S [] p rest h
    simp only [List.nil_append] at hp
    subst hp
    refine ⟨hS, hsuf, ?_⟩
    intro n hn
    rcases Nat.eq_zero_or_pos n with h0 | hn0
    · subst h0
      simp only [List.take_zero]
      cases hfalse : T.isSuffixOf [] with
      | false => rfl
      | true =>
        exact absurd (List.suffix_nil.mp (List.isSuffixOf_iff_suffix.mp hfalse)) hT
    · have := hmin n hn0 hn
      simpa using this
  · rintro ⟨n, hn0, hnle, hsuf⟩
    exact readUntilAcc_complete T S [] n hn0 hnle (by simpa using hsuf)
  · rintro t P r rfl hP rfl
    exact readUntilSink_single t P r hP
  · intro h2
    exact readUntilSink_long T h2 S

theorem readUntil_first_match_witness :
    ((∀ p rest, readUntilAcc [7] [] [5, 7, 9] = some (p, rest) →
      ([5, 7, 9] : List Nat) = p ++ rest ∧ ([7] : List Nat).isSuffixOf p = true ∧
        ∀ n, n < p.length → ([7] : List Nat).isSuffixOf (p.take n) = false) ∧
    ((∃ n, 0 < n ∧ n ≤ ([5, 7, 9] : List Nat).length ∧
        ([7] : List Nat).isSuffixOf (([5, 7, 9] : List Nat).take n) = true) →
      (readUntilAcc [7] [] [5, 7, 9]).isSome) ∧
    (∀ t P r, ([7] : List Nat) = [t] → t ∉ P → ([5, 7, 9] : List Nat) = P ++ t :: r →
      readUntilSink [7] [5, 7, 9] =
        (some [t], P.filter (fun b => b != 4) ++ (if t = 4 then [] else [t]), r)) ∧
    (2 ≤ ([7] : List Nat).length → (readUntilSink [7] [5, 7, 9]).1 = none)) :=
  readUntil_first_match [7] [5, 7, 9] (by decide)

/-- C4: `ExecRaw` reads until the prompt byte `'>'`, writes the code
bytes and then the single byte `0x04`, reads exactly the next 2 reply
bytes, and succeeds iff they equal `"OK"`; any other 2-byte reply gives
the generic execution failure, with no retry and nothing further
consumed. -/
theorem execRaw_protocol (code P : List Nat) (r1 r2 : Nat) (rest out : List Nat)
    (hP : 62 ∉ P) :
    execRaw code ⟨true, P ++ 62 :: r1 :: r2 :: rest, out⟩ =
      ((if [r1, r2] = [79, 75] then .ok () else .error .execFail : Except Err Unit),
       ⟨true, rest, out ++ code ++ [4]⟩) :=
  execRaw_eq code P r1 r2 rest out hP

theorem execRaw_protocol_witness :
    execRaw [97] ⟨true, [] ++ 62 :: 79 :: 75 :: [], []⟩ =
      ((if ([79, 75] : List Nat) = [79, 75] then .ok () else .error .execFail :
        Except Err Unit),
       ⟨true, [], [] ++ [97] ++ [4]⟩) :=
  execRaw_protocol [97] [] 79 75 [] [] (by decide)

/-- C5: with a sink, every consumed byte is forwarded to the sink
except `0x04` bytes, which are filtered from the sink stream yet still
participate in terminator matching (a terminator `0x04` byte stops the
read while the sink receives nothing for it). -/
theorem readUntilSink_filters (T S : List Nat) :
    (∃ p, S = p ++ (readUntilSink T S).2.2 ∧
      (readUntilSink T S).2.1 = p.filter (fun b => b != 4)) ∧
    (∀ S2 : List Nat, readUntilSink [4] (4 :: S2) = (some [4], [], S2)) := by
  constructor
  · induction S with
    | nil => exact ⟨[], rfl, rfl⟩
    | cons b rest ih =>
      by_cases hs : T.isSuffixOf [b] = true
      · have hsP : T <:+ [b] := List.isSuffixOf_iff_suffix.mp hs
        refine ⟨[b], ?_, ?_⟩
        · by_cases hb4 : b = 4
          · subst hb4
            simp [readUntilSink, hsP]
          · simp [readUntilSink, hsP, hb4]
        · by_cases hb4 : b = 4
          · subst hb4
            simp [readUntilSink, hsP, List.filter_cons]
          · simp [readUntilSink, hsP, hb4, List.filter_cons]
      · obtain ⟨p, hp1, hp2⟩ := ih
        refine ⟨b :: p, ?_, ?_⟩
        · simp only [readUntilSink, if_neg hs]
          simpa using hp1
        · simp only [readUntilSink, if_neg hs]
          by_cases hb4 : b = 4 <;> simp [hb4, List.filter_cons, hp2]
  · intro S2
    have hs : ([4] : List Nat).isSuffixOf [4] = true := by
      simp [List.isSuffixOf_iff_suffix]
    simp [readUntilSink, hs]

/-- C6: a 300-byte transfer crosses the chunk boundary exactly once:
`Put` sends its header, then exactly two chunk-write snippets carrying
the base64 of the first 256 bytes and of the remaining 44 bytes, then
the explicit close snippet; the `Get` loop observes a 256-byte chunk, a
44-byte chunk, and then the length-0 chunk that stops it — exactly 2
non-empty chunks. -/
theorem chunk_boundary_300 (dst : String) (l : List Nat) (hl : l.length = 300) :
    putSnippets dst l = [putHeader dst, putWriteSnippet (b64encode (l.take 256)),
      putWriteSnippet (b64encode (l.drop 256)), putCloseSnippet] ∧
    (l.take 256).length = 256 ∧ (l.drop 256).length = 44 ∧
    getIterChunks l = [l.take 256, l.drop 256, []] ∧
    ((getIterChunks l).filter (fun c => !c.isEmpty)).length = 2 := by
  have h1 : (l.take 256).length = 256 := by simp [hl]
  have h2 : (l.drop 256).length = 44 := by simp [hl]
  have hne : l ≠ [] := by intro he; rw [he] at hl; simp at hl
  have hdne : l.drop 256 ≠ [] := by intro he; rw [he] at h2; simp at h2
  have hdd : (l.drop 256).drop 256 = [] := List.drop_eq_nil_of_le (by omega)
  have hdt : (l.drop 256).take 256 = l.drop 256 := List.take_of_length_le (by omega)
  have hchunks : chunks256 l = [l.take 256, l.drop 256] := by
    rw [chunks256, dif_neg hne, chunks256, dif_neg hdne, hdt, hdd, chunks256, dif_pos rfl]
  have hiter : getIterChunks l = [l.take 256, l.drop 256, []] := by
    rw [getIterChunks, dif_neg hne, getIterChunks, dif_neg hdne, hdt, hdd,
      getIterChunks, dif_pos rfl]
  refine ⟨?_, h1, h2, hiter, ?_⟩
  · rw [putSnippets, hchunks]
    simp
  · rw [hiter]
    have ht : (l.take 256).isEmpty = false := by
      rw [Bool.eq_false_iff]
      intro he
      rw [List.isEmpty_iff.mp he] at h1
      simp at h1
    have hd : (l.drop 256).isEmpty = false := by
      rw [Bool.eq_false_iff]
      intro he
      exact hdne (List.isEmpty_iff.mp he)
    simp [List.filter_cons, ht, hd]

theorem chunk_boundary_300_witness :
    (putSnippets "x" (List.replicate 300 7) = [putHeader "x",
      putWriteSnippet (b64encode ((List.replicate 300 7).take 256)),
      putWriteSnippet (b64encode ((List.replicate 300 7).drop 256)), putCloseSnippet] ∧
    ((List.replicate 300 7).take 256).length = 256 ∧
    ((List.replicate 300 7).drop 256).length = 44 ∧
    getIterChunks (List.replicate 300 7) =
      [(List.replicate 300 7).take 256, (List.replicate 300 7).drop 256, []] ∧
    ((getIterChunks (List.replicate 300 7)).filter (fun c => !c.isEmpty)).length = 2) :=
  chunk_boundary_300 "x" (List.replicate 300 7) (by rw [List.length_replicate])

/-- C7: `SoftReboot` writes exactly the single byte `0x04` and then
performs the two banner reads strictly in sequence: a failed write
performs no reads and no writes at all, a failure to observe the first
banner stops before the second read is attempted, a failure on the
second banner ends the operation; every failure is returned immediately
with no retry, and on success nothing else is written. -/
theorem wr_true (bs inp out : List Nat) :
    wr bs ⟨true, inp, out⟩ = (.ok (), ⟨true, inp, out ++ bs⟩) := rfl

theorem softReboot_protocol :
    (∀ inp out, softReboot ⟨false, inp, out⟩ = (.error .timeout, ⟨false, inp, out⟩)) ∧
    (∀ inp out d1 m d2 rest,
      readUntilAcc bannerReboot [] inp = some (d1, m) →
      readUntilAcc bannerRaw [] m = some (d2, rest) →
      softReboot ⟨true, inp, out⟩ = (.ok (), ⟨true, rest, out ++ [4]⟩)) ∧
    (∀ inp out, readUntilAcc bannerReboot [] inp = none →
      softReboot ⟨true, inp, out⟩ = (.error .timeout, ⟨true, [], out ++ [4]⟩)) ∧
    (∀ inp out d1 m, readUntilAcc bannerReboot [] inp = some (d1, m) →
      readUntilAcc bannerRaw [] m = none →
      softReboot ⟨true, inp, out⟩ = (.error .timeout, ⟨true, [], out ++ [4]⟩)) := by
  refine ⟨?_, ?_, ?_, ?_⟩
  · intro inp out
    rfl
  · intro inp out d1 m d2 rest h1 h2
    unfold softReboot
    rw [wr_true [4] inp out]
    simp only []
    rw [rdUntil_of_acc bannerReboot ⟨true, inp, out ++ [4]⟩ d1 m h1]
    simp only []
    rw [rdUntil_of_acc bannerRaw ⟨true, m, out ++ [4]⟩ d2 rest h2]
  · intro inp out h1
    unfold softReboot
    rw [wr_true [4] inp out]
    simp only []
    rw [rdUntil_of_none bannerReboot ⟨true, inp, out ++ [4]⟩ h1]
  · intro inp out d1 m h1 h2
    unfold softReboot
    rw [wr_true [4] inp out]
    simp only []
    rw [rdUntil_of_acc bannerReboot ⟨true, inp, out ++ [4]⟩ d1 m h1]
    simp only []
    rw [rdUntil_of_none bannerRaw ⟨true, m, out ++ [4]⟩ h2]

theorem softReboot_protocol_witness :
    softReboot ⟨true, bannerReboot ++ bannerRaw, []⟩ =
      (.ok (), ⟨true, [], [] ++ [4]⟩) :=
  (softReboot_protocol.2.1) (bannerReboot ++ bannerRaw) [] bannerReboot bannerRaw
    bannerRaw [] (by decide) (by decide)

/-- C8: `Get` opens its destination with create-if-missing but without
truncation, and the download loop overwrites exactly the downloaded
prefix — every byte of a longer pre-existing destination beyond the
downloaded content is unchanged. -/
theorem get_preserves_old_tail (old remote : List Nat) (h : ∀ b ∈ remote, b < 256) :
    ∃ final, getGo old 0 remote = some final ∧
      final.length = max old.length remote.length ∧
      ∀ i, remote.length ≤ i → final[i]? = old[i]? := by
  refine ⟨remote ++ old.drop remote.length, ?_, ?_, ?_⟩
  · have := getGo_eq_aux remote.length remote old 0 le_rfl h (by omega)
    simpa using this
  · simp only [List.length_append, List.length_drop]
    omega
  · intro i hi
    rw [List.getElem?_append_right (by simpa using hi), List.getElem?_drop]
    congr 1
    omega

theorem get_preserves_old_tail_witness :
    ∃ final, getGo [9, 9, 9, 9, 9] 0 [1, 2] = some final ∧
      final.length = max ([9, 9, 9, 9, 9] : List Nat).length ([1, 2] : List Nat).length ∧
      ∀ i, ([1, 2] : List Nat).length ≤ i → final[i]? = ([9, 9, 9, 9, 9] : List Nat)[i]? :=
  get_preserves_old_tail [9, 9, 9, 9, 9] [1, 2] (by decide)

/-- C9: `Ls` returns the sink output split on space characters after
trimming trailing spaces: empty output yields exactly one entry, the
empty string (not an empty slice), and a file name containing a space
is split into two separate entries. -/
theorem ls_split_behaviour :
    lsParse [] = [[]] ∧
    lsParse [97, 32, 98, 32] = [[97], [98]] ∧
    (lsParse [97, 32, 98, 32]).length = 2 := by
  refine ⟨rfl, rfl, rfl⟩

/-- C10: when the remote error stream is non-empty, `Exec` reports the
remote error and returns no stdout data — the stdout bytes are absent
from the returned value — although with a sink those bytes were already
forwarded to the sink before the failure is reported. -/
theorem exec_discards_stdout (code P D E rest out : List Nat)
    (hP : 62 ∉ P) (hD : 4 ∉ D) (hE : 4 ∉ E) (hEne : E ≠ []) :
    (execNil code ⟨true, P ++ 62 :: 79 :: 75 :: (D ++ 4 :: (E ++ 4 :: rest)), out⟩).1 =
      .error (.remote E) ∧
    (execSink code ⟨true, P ++ 62 :: 79 :: 75 :: (D ++ 4 :: (E ++ 4 :: rest)), out⟩).1 =
      (.error (.remote E), D) := by
  have hl : E.length > 0 := List.length_pos.mpr hEne
  constructor
  · rw [execNil_eq code P D E rest out hP hD hE]
    simp [hl]
  · rw [execSink_eq code P D E rest out hP hD hE]
    simp [hl]

theorem exec_discards_stdout_witness :
    ((execNil [99] ⟨true, [] ++ 62 :: 79 :: 75 :: ([100] ++ 4 :: ([101] ++ 4 :: [])), []⟩).1 =
      .error (.remote [101]) ∧
    (execSink [99] ⟨true, [] ++ 62 :: 79 :: 75 :: ([100] ++ 4 :: ([101] ++ 4 :: [])), []⟩).1 =
      (.error (.remote [101]), [100])) :=
  exec_discards_stdout [99] [] [100] [101] [] [] (by decide) (by decide) (by decide)
    (by decide)

end Zap
